import Mathlib

/-!
Verification of the badlngenerics line-info checker (src/main.go).

The embedding models machine integers as follows: `uint64` PC addresses
become `Nat` (the code only compares them, never does wrapping
arithmetic), and Go `int` line numbers become `Int`.  Go's `-1` index
sentinel of `strings.Index` / `strings.LastIndex` is modelled with
`Option Nat` (`none` = "-1", `some i` = index `i`); since `[` and `]`
are single-byte ASCII characters, Go's byte indices cut the string at
character boundaries, so the character-level model agrees with the
byte-level code on every valid UTF-8 string.  The DWARF reader and the
line-table reader are modelled as lists of already-decoded records, and
the `funcs` Go map as a lookup function `String → Option Func`.
-/

namespace Badln

/-- `Func` from main.go: canonical name plus inclusive line span. -/
structure Func where
  Name : String
  startLine : Int
  endLine : Int
deriving DecidableEq

/-- `FuncRange` from main.go: `Rng` is the half-open PC interval
`[Rng.1, Rng.2)` and `Fn` the owning function. -/
structure FuncRange where
  Rng : Nat × Nat
  Fn : Func
deriving DecidableEq

/-- DWARF tags distinguished by the code (`dwarf.TagSubprogram`,
`dwarf.TagCompileUnit`, anything else). -/
inductive Tag where
  | subprogram
  | compileUnit
  | other
deriving DecidableEq

/-- One record of a compile unit's line-number program
(`dwarf.LineEntry`): address, file name, line, is-statement flag. -/
structure LineEntry where
  Address : Nat
  File : String
  Line : Int
  IsStmt : Bool
deriving DecidableEq

/-- One decoded debug-info entry (`dwarf.Entry`): its tag, the optional
name / low-PC / high-PC attributes (`e.Val` returns `nil` ⇒ `none`),
and, for compile units, the decoded line program that
`dw.LineReader(e)` would yield. -/
structure DwarfEntry where
  tag : Tag
  name : Option String
  lowpc : Option Nat
  highpc : Option Nat
  lineProgram : List LineEntry
deriving DecidableEq

/-- The `onlyStmt` configuration constant of main.go (line 23). -/
def onlyStmt : Bool := false

/-- Go `strings.Index` on a character list: index of the first
occurrence of `c`, `none` when absent (Go returns `-1`). -/
def strIndex (c : Char) : List Char → Option Nat
  | [] => none
  | x :: xs => if x = c then some 0 else (strIndex c xs).map (· + 1)

/-- Go `strings.LastIndex` on a character list: index of the last
occurrence of `c`, `none` when absent (Go returns `-1`). -/
def strLastIndex (c : Char) : List Char → Option Nat
  | [] => none
  | x :: xs =>
    match strLastIndex c xs with
    | some j => some (j + 1)
    | none => if x = c then some 0 else none

/-- `withoutTypeParams` from main.go (lines 101-108): when the string
contains a `[` whose first occurrence precedes the last `]`, drop
everything from that `[` to that `]` inclusive; otherwise return the
string unchanged. -/
def withoutTypeParams (s : String) : String :=
  match strIndex '[' s.data, strLastIndex ']' s.data with
  | some i, some j => if i < j then ⟨s.data.take i ++ s.data.drop (j + 1)⟩ else s
  | some _, none => s
  | none, _ => s

/-- Go `filepath.Base` (unix rules): basename of a path. -/
def basename (path : String) : String :=
  if path = "" then "."
  else
    let l := path.data.reverse.dropWhile (· = '/')
    if l = [] then "/"
    else ⟨(l.takeWhile (· ≠ '/')).reverse⟩

/-- One function or method declaration of the parsed source file, as
the `go/ast` collaborator presents it to `getLineRanges`: the declared
identifier, the receiver type rendered to source text by
`exprToString` (`none` for a top-level function), and the lines of the
declaration's first and last token (`fset.Position(n.Pos()).Line` and
`fset.Position(n.End()).Line`). -/
structure FuncDecl where
  name : String
  recvType : Option String
  startLine : Int
  endLine : Int
deriving DecidableEq

/-- The canonical-name computation of `getLineRanges` (main.go lines
82-86): `name`, prefixed by the stripped receiver type for methods,
then qualified with `"main."`. -/
def funcDeclKey (d : FuncDecl) : String :=
  "main." ++
    match d.recvType with
    | none => d.name
    | some t => "(" ++ withoutTypeParams t ++ ")." ++ d.name

/-- The map insert of `getLineRanges` (main.go line 86): record the
declaration under its canonical key, shadowing any earlier entry. -/
def updFunc (m : String → Option Func) (d : FuncDecl) : String → Option Func :=
  fun k =>
    if k = funcDeclKey d then some ⟨funcDeclKey d, d.startLine, d.endLine⟩
    else m k

/-- `getLineRanges` from main.go (lines 70-93): walk the declarations
in source order and record each one in the `funcs` map (modelled as a
lookup function; a later declaration with the same key overwrites an
earlier one, as a Go map insert does). -/
def getLineRanges (decls : List FuncDecl) : String → Option Func :=
  decls.foldl updFunc (fun _ => none)

/-- The collection loop of `getPCRanges` (main.go lines 115-140): keep
every subprogram record that has all three attributes and whose
stripped name is in the index, in reader order. -/
def collectRanges (entries : List DwarfEntry) (funcs : String → Option Func) :
    List FuncRange :=
  match entries with
  | [] => []
  | e :: es =>
    if e.tag = Tag.subprogram then
      match e.name, e.lowpc, e.highpc with
      | some name, some low, some high =>
        match funcs (withoutTypeParams name) with
        | some fn => ⟨(low, high), fn⟩ :: collectRanges es funcs
        | none => collectRanges es funcs
      | _, _, _ => collectRanges es funcs
    else collectRanges es funcs

/-- The comparison of the `sort.Slice` call (main.go line 141), as the
total order it sorts by: ascending low address. -/
def rangeLE (a b : FuncRange) : Prop := a.Rng.1 ≤ b.Rng.1

instance : DecidableRel rangeLE := fun a b => Nat.decLe a.Rng.1 b.Rng.1

instance : IsTotal FuncRange rangeLE := ⟨fun a b => Nat.le_total a.Rng.1 b.Rng.1⟩

instance : IsTrans FuncRange rangeLE := ⟨fun _ _ _ => Nat.le_trans⟩

/-- `getPCRanges` from main.go (lines 110-144): collect the matched
subprogram ranges, then sort ascending by low address. -/
def getPCRanges (entries : List DwarfEntry) (funcs : String → Option Func) :
    List FuncRange :=
  List.insertionSort rangeLE (collectRanges entries funcs)

/-- `getFunc` from main.go (lines 209-217): first range in sequence
order containing the address, `none` when no range does. -/
def getFunc (pc : Nat) : List FuncRange → Option Func
  | [] => none
  | r :: rs => if r.Rng.1 ≤ pc ∧ pc < r.Rng.2 then some r.Fn else getFunc pc rs

/-- `Violation`: one line of output of `checkLines` (main.go line 203):
source-file basename, reported line, address, owning function name. -/
structure Violation where
  file : String
  line : Int
  address : Nat
  fnName : String
deriving DecidableEq

/-- The body of the inner loop of `checkLines` (main.go lines 195-204)
for one line entry: skip non-statement entries when `onlyStmt` is set,
resolve the owning function, and emit a violation when the reported
line lies outside the function's inclusive span. -/
def checkEntry (funcRanges : List FuncRange) (lne : LineEntry) : Option Violation :=
  if onlyStmt && !lne.IsStmt then none
  else
    match getFunc lne.Address funcRanges with
    | none => none
    | some fn =>
      if lne.Line < fn.startLine ∨ lne.Line > fn.endLine then
        some ⟨basename lne.File, lne.Line, lne.Address, fn.Name⟩
      else none

/-- The inner loop of `checkLines` over one compile unit's line
program, in order. -/
def checkLineProg (funcRanges : List FuncRange) : List LineEntry → List Violation
  | [] => []
  | lne :: rest =>
    match checkEntry funcRanges lne with
    | some v => v :: checkLineProg funcRanges rest
    | none => checkLineProg funcRanges rest

/-- `checkLines` from main.go (lines 170-207): walk the debug entries,
and for every compile unit check its line program; the violation
stream is produced in reader order. -/
def checkLines (entries : List DwarfEntry) (funcRanges : List FuncRange) :
    List Violation :=
  match entries with
  | [] => []
  | e :: es =>
    if e.tag = Tag.compileUnit then
      checkLineProg funcRanges e.lineProgram ++ checkLines es funcRanges
    else checkLines es funcRanges

/-- The per-file checking pipeline of `main` (main.go lines 50-64),
starting from the parsed declarations and the decoded debug info:
build the function index, resolve the PC ranges, check the line
programs. -/
def pipeline (decls : List FuncDecl) (entries : List DwarfEntry) :
    List Violation :=
  let funcs := getLineRanges decls
  checkLines entries (getPCRanges entries funcs)

/-! ### Lemmas about the index helpers -/

theorem strIndex_get {c : Char} : ∀ {l : List Char} {i : Nat},
    strIndex c l = some i → l[i]? = some c := by
  intro l
  induction l with
  | nil => intro i h; simp [strIndex] at h
  | cons x xs ih =>
    intro i h
    simp only [strIndex] at h
    by_cases hx : x = c
    · rw [if_pos hx] at h
      injection h with h
      subst h
      simp [hx]
    · rw [if_neg hx] at h
      rw [Option.map_eq_some'] at h
      obtain ⟨i1, hi1, hi⟩ := h
      subst hi
      simpa using ih hi1

theorem strIndex_not_mem_take {c : Char} : ∀ {l : List Char} {i : Nat},
    strIndex c l = some i → c ∉ l.take i := by
  intro l
  induction l with
  | nil => intro i h; simp [strIndex] at h
  | cons x xs ih =>
    intro i h
    simp only [strIndex] at h
    by_cases hx : x = c
    · rw [if_pos hx] at h
      injection h with h
      subst h
      simp
    · rw [if_neg hx] at h
      rw [Option.map_eq_some'] at h
      obtain ⟨i1, hi1, hi⟩ := h
      subst hi
      simp only [List.take_succ_cons, List.mem_cons, not_or]
      exact ⟨fun hc => hx hc.symm, ih hi1⟩

theorem strLastIndex_eq_none {c : Char} : ∀ {l : List Char},
    strLastIndex c l = none ↔ c ∉ l := by
  intro l
  induction l with
  | nil => simp [strLastIndex]
  | cons x xs ih =>
    simp only [strLastIndex]
    cases h : strLastIndex c xs with
    | some j =>
      have hmem : c ∈ xs := by
        by_contra hc
        rw [← ih] at hc
        rw [h] at hc
        exact Option.noConfusion hc
      simp [hmem]
    | none =>
      have hnot : c ∉ xs := ih.mp h
      by_cases hx : x = c
      · simp [hx]
      · simp only [if_neg hx, List.mem_cons, not_or]
        constructor
        · intro _
          exact ⟨fun hc => hx hc.symm, hnot⟩
        · intro _
          trivial

theorem strLastIndex_get {c : Char} : ∀ {l : List Char} {j : Nat},
    strLastIndex c l = some j → l[j]? = some c := by
  intro l
  induction l with
  | nil => intro j h; simp [strLastIndex] at h
  | cons x xs ih =>
    intro j h
    simp only [strLastIndex] at h
    cases h2 : strLastIndex c xs with
    | some j1 =>
      rw [h2] at h
      injection h with h
      subst h
      simpa using ih h2
    | none =>
      rw [h2] at h
      by_cases hx : x = c
      · simp only [if_pos hx, Option.some.injEq] at h
        subst h
        simp [hx]
      · simp [if_neg hx] at h

theorem strLastIndex_not_mem_drop {c : Char} : ∀ {l : List Char} {j : Nat},
    strLastIndex c l = some j → c ∉ l.drop (j + 1) := by
  intro l
  induction l with
  | nil => intro j h; simp [strLastIndex] at h
  | cons x xs ih =>
    intro j h
    simp only [strLastIndex] at h
    cases h2 : strLastIndex c xs with
    | some j1 =>
      rw [h2] at h
      injection h with h
      subst h
      simpa using ih h2
    | none =>
      rw [h2] at h
      by_cases hx : x = c
      · simp only [if_pos hx, Option.some.injEq] at h
        subst h
        simpa using strLastIndex_eq_none.mp h2
      · simp [if_neg hx] at h

/-- When the strip condition holds, `withoutTypeParams` returns exactly
the spliced string. -/
theorem withoutTypeParams_eq_strip {s : String} {i j : Nat}
    (h1 : strIndex '[' s.data = some i) (h2 : strLastIndex ']' s.data = some j)
    (hij : i < j) :
    withoutTypeParams s = ⟨s.data.take i ++ s.data.drop (j + 1)⟩ := by
  simp [withoutTypeParams, h1, h2, hij]

/-- A string with no `[` occurring (strictly) before a `]` is left
unchanged by `withoutTypeParams`. -/
theorem withoutTypeParams_eq_self_of_no_pair {s : String}
    (h : ∀ p q : Nat, p < q →
      ¬(s.data[p]? = some '[' ∧ s.data[q]? = some ']')) :
    withoutTypeParams s = s := by
  unfold withoutTypeParams
  cases h1 : strIndex '[' s.data with
  | none => rfl
  | some i =>
    cases h2 : strLastIndex ']' s.data with
    | none => rfl
    | some j =>
      by_cases hij : i < j
      · exact absurd ⟨strIndex_get h1, strLastIndex_get h2⟩ (h i j hij)
      · simp [hij]

/-- The spliced result of a strip contains no `[` strictly before a
`]`: every `[` of the result sits at or after the cut position `i`,
while every `]` of the result sits before it. -/
theorem strip_no_pair {s : String} {i j : Nat}
    (h1 : strIndex '[' s.data = some i) (h2 : strLastIndex ']' s.data = some j)
    (hij : i < j) :
    ∀ p q : Nat, p < q →
      ¬((s.data.take i ++ s.data.drop (j + 1))[p]? = some '[' ∧
        (s.data.take i ++ s.data.drop (j + 1))[q]? = some ']') := by
  intro p q hpq hcon
  obtain ⟨hp, hq⟩ := hcon
  have hilen : i < s.data.length := by
    have := strIndex_get h1
    rw [List.getElem?_eq_some] at this
    exact this.1
  have htakelen : (s.data.take i).length = i := by
    rw [List.length_take]
    exact Nat.min_eq_left (Nat.le_of_lt hilen)
  rcases Nat.lt_or_ge p i with hpi | hpi
  · rw [List.getElem?_append, htakelen, if_pos hpi] at hp
    exact strIndex_not_mem_take h1 (List.getElem?_mem hp)
  · have hqi : ¬ q < i := fun hc => Nat.lt_irrefl q (Nat.lt_of_lt_of_le hc (Nat.le_trans hpi (Nat.le_of_lt hpq)))
    rw [List.getElem?_append, htakelen, if_neg hqi] at hq
    exact strLastIndex_not_mem_drop h2 (List.getElem?_mem hq)

/-- C10: `withoutTypeParams` is idempotent, and it is the identity on
every string with no `[` occurring strictly before a `]`. -/
theorem withoutTypeParams_idem_and_id (s : String) :
    withoutTypeParams (withoutTypeParams s) = withoutTypeParams s ∧
      ((¬ ∃ p q : Nat, p < q ∧ s.data[p]? = some '[' ∧ s.data[q]? = some ']') →
        withoutTypeParams s = s) := by
  constructor
  · cases h1 : strIndex '[' s.data with
    | none =>
      have hid : withoutTypeParams s = s := by unfold withoutTypeParams; rw [h1]
      rw [hid, hid]
    | some i =>
      cases h2 : strLastIndex ']' s.data with
      | none =>
        have hid : withoutTypeParams s = s := by unfold withoutTypeParams; rw [h1, h2]
        rw [hid, hid]
      | some j =>
        by_cases hij : i < j
        · rw [withoutTypeParams_eq_strip h1 h2 hij]
          exact withoutTypeParams_eq_self_of_no_pair (strip_no_pair h1 h2 hij)
        · have hid : withoutTypeParams s = s := by
            unfold withoutTypeParams
            rw [h1, h2]
            simp [hij]
          rw [hid, hid]
  · intro h
    apply withoutTypeParams_eq_self_of_no_pair
    intro p q hpq hcon
    exact h ⟨p, q, hpq, hcon.1, hcon.2⟩

/-- Witness for C10 at concrete strings: a stripped generic name, and
an untouched bracket-free name. -/
theorem withoutTypeParams_idem_and_id_witness :
    withoutTypeParams (withoutTypeParams "Base[int]") = withoutTypeParams "Base[int]" ∧
      withoutTypeParams "abc" = "abc" :=
  ⟨(withoutTypeParams_idem_and_id "Base[int]").1,
    (withoutTypeParams_idem_and_id "abc").2 (by
      rintro ⟨p, q, hpq, hp, hq⟩
      have hmem := List.getElem?_mem hp
      exact absurd hmem (by decide))⟩

/-! ### Address-to-function lookup -/

/-- `getFunc` returns `none` exactly when no range contains the
address. -/
theorem getFunc_eq_none_iff (pc : Nat) (rs : List FuncRange) :
    getFunc pc rs = none ↔ ∀ r ∈ rs, ¬(r.Rng.1 ≤ pc ∧ pc < r.Rng.2) := by
  induction rs with
  | nil => simp [getFunc]
  | cons r rs ih =>
    simp only [getFunc]
    by_cases hc : r.Rng.1 ≤ pc ∧ pc < r.Rng.2
    · simp [hc]
    · rw [if_neg hc, ih]
      constructor
      · intro h r2 hr2
        rcases List.mem_cons.mp hr2 with h2 | h2
        · exact h2 ▸ hc
        · exact h r2 h2
      · intro h r2 hr2
        exact h r2 (List.mem_cons_of_mem r hr2)

/-- `getFunc` is the first-match search of the sequence. -/
theorem getFunc_eq_find (pc : Nat) (rs : List FuncRange) :
    getFunc pc rs =
      (rs.find? (fun r => decide (r.Rng.1 ≤ pc ∧ pc < r.Rng.2))).map FuncRange.Fn := by
  induction rs with
  | nil => simp [getFunc]
  | cons r rs ih =>
    simp only [getFunc, List.find?]
    by_cases hc : r.Rng.1 ≤ pc ∧ pc < r.Rng.2
    · simp [hc]
    · simp only [hc, decide_False, if_false, Bool.false_eq_true, cond_false]
      simpa using ih

/-- On a sorted sequence any function returned by `getFunc` comes from
a containing range whose low address is minimal among all containing
ranges. -/
theorem getFunc_min_low (pc : Nat) : ∀ (rs : List FuncRange), rs.Sorted rangeLE →
    ∀ fn, getFunc pc rs = some fn →
      ∃ r ∈ rs, (r.Rng.1 ≤ pc ∧ pc < r.Rng.2) ∧ r.Fn = fn ∧
        ∀ r2 ∈ rs, (r2.Rng.1 ≤ pc ∧ pc < r2.Rng.2) → r.Rng.1 ≤ r2.Rng.1 := by
  intro rs
  induction rs with
  | nil => intro _ fn h; simp [getFunc] at h
  | cons r rs ih =>
    intro hs fn h
    simp only [getFunc] at h
    by_cases hc : r.Rng.1 ≤ pc ∧ pc < r.Rng.2
    · rw [if_pos hc] at h
      injection h with h
      refine ⟨r, List.mem_cons_self r rs, hc, h, ?_⟩
      intro r2 hr2 hc2
      rcases List.mem_cons.mp hr2 with hr2 | hr2
      · rw [hr2]
      · exact List.rel_of_sorted_cons hs r2 hr2
    · rw [if_neg hc] at h
      obtain ⟨r1, hr1, hc1, hfn, hmin⟩ := ih hs.of_cons fn h
      refine ⟨r1, List.mem_cons_of_mem r hr1, hc1, hfn, ?_⟩
      intro r2 hr2 hc2
      rcases List.mem_cons.mp hr2 with hr2 | hr2
      · exact absurd hc2 (hr2 ▸ hc)
      · exact hmin r2 hr2 hc2

/-- C2: on a sequence sorted ascending by low address, `getFunc`
returns the function of the first range in sequence order containing
the address (`none` when no range contains it), and any returned
function belongs to a containing range of minimal low address, so
under overlap the smallest-low containing range wins. -/
theorem getFunc_first_and_min_low (pc : Nat) (rs : List FuncRange)
    (hs : rs.Sorted rangeLE) :
    getFunc pc rs =
        (rs.find? (fun r => decide (r.Rng.1 ≤ pc ∧ pc < r.Rng.2))).map FuncRange.Fn ∧
      (getFunc pc rs = none ↔ ∀ r ∈ rs, ¬(r.Rng.1 ≤ pc ∧ pc < r.Rng.2)) ∧
      (∀ fn, getFunc pc rs = some fn →
        ∃ r ∈ rs, (r.Rng.1 ≤ pc ∧ pc < r.Rng.2) ∧ r.Fn = fn ∧
          ∀ r2 ∈ rs, (r2.Rng.1 ≤ pc ∧ pc < r2.Rng.2) → r.Rng.1 ≤ r2.Rng.1) :=
  ⟨getFunc_eq_find pc rs, getFunc_eq_none_iff pc rs, getFunc_min_low pc rs hs⟩

/-- Witness for C2 on an overlapping, sorted pair of ranges at address
6: the smaller-low range wins. -/
theorem getFunc_first_and_min_low_witness :
    getFunc 6 [⟨(0, 10), ⟨"main.A", 1, 5⟩⟩, ⟨(5, 8), ⟨"main.B", 6, 9⟩⟩] =
      some ⟨"main.A", 1, 5⟩ := by
  have h := getFunc_first_and_min_low 6
    [⟨(0, 10), ⟨"main.A", 1, 5⟩⟩, ⟨(5, 8), ⟨"main.B", 6, 9⟩⟩]
    (by
      constructor
      · intro b hb
        simp only [List.mem_singleton] at hb
        subst hb
        exact Nat.zero_le 5
      · exact List.sorted_singleton _)
  rw [h.1]
  rfl

/-! ### PC range resolution -/

/-- C5: the range sequence produced by `getPCRanges` is always sorted
ascending by low address. -/
theorem getPCRanges_sorted (entries : List DwarfEntry) (funcs : String → Option Func) :
    (getPCRanges entries funcs).Sorted rangeLE :=
  List.sorted_insertionSort rangeLE (collectRanges entries funcs)

/-- A subprogram record carrying all three attributes, whose stripped
name is in the index, contributes its range to the collection. -/
theorem collectRanges_mem {entries : List DwarfEntry} {funcs : String → Option Func}
    {e : DwarfEntry} {n : String} {low high : Nat} {f : Func}
    (he : e ∈ entries) (ht : e.tag = Tag.subprogram) (hn : e.name = some n)
    (hl : e.lowpc = some low) (hh : e.highpc = some high)
    (hf : funcs (withoutTypeParams n) = some f) :
    (⟨(low, high), f⟩ : FuncRange) ∈ collectRanges entries funcs := by
  induction entries with
  | nil => simp at he
  | cons e1 es ih =>
    rcases List.mem_cons.mp he with he1 | he1
    · subst he1
      obtain ⟨t, nm, lo, hi, lp⟩ := e
      simp only at ht hn hl hh
      subst ht hn hl hh
      simp only [collectRanges, if_pos rfl, hf]
      exact List.mem_cons_self _ _
    · have hmem := ih he1
      simp only [collectRanges]
      by_cases ht1 : e1.tag = Tag.subprogram
      · rw [if_pos ht1]
        obtain ⟨t, nm, lo, hi, lp⟩ := e1
        cases nm with
        | none => exact hmem
        | some n1 =>
          cases lo with
          | none => exact hmem
          | some l1 =>
            cases hi with
            | none => exact hmem
            | some h1 =>
              cases hfn : funcs (withoutTypeParams n1) with
              | none => simp only [hfn]; exact hmem
              | some f1 => simp only [hfn]; exact List.mem_cons_of_mem _ hmem
      · rw [if_neg ht1]
        exact hmem

/-- Membership in `getPCRanges` is membership in the collection (the
sort permutes). -/
theorem mem_getPCRanges_iff {entries : List DwarfEntry} {funcs : String → Option Func}
    {r : FuncRange} :
    r ∈ getPCRanges entries funcs ↔ r ∈ collectRanges entries funcs :=
  List.mem_insertionSort rangeLE

/-- C3: two subprogram records (for example two compiled
instantiations of one generic function) whose names strip to the same
canonical name present in the index both contribute ranges referencing
the one same function object. -/
theorem getPCRanges_instantiations_share_func
    (entries : List DwarfEntry) (funcs : String → Option Func)
    (e1 e2 : DwarfEntry) (n1 n2 : String) (l1 h1 l2 h2 : Nat) (f : Func)
    (he1 : e1 ∈ entries) (ht1 : e1.tag = Tag.subprogram) (hn1 : e1.name = some n1)
    (hl1 : e1.lowpc = some l1) (hh1 : e1.highpc = some h1)
    (he2 : e2 ∈ entries) (ht2 : e2.tag = Tag.subprogram) (hn2 : e2.name = some n2)
    (hl2 : e2.lowpc = some l2) (hh2 : e2.highpc = some h2)
    (hstrip : withoutTypeParams n2 = withoutTypeParams n1)
    (hf : funcs (withoutTypeParams n1) = some f) :
    (⟨(l1, h1), f⟩ : FuncRange) ∈ getPCRanges entries funcs ∧
      (⟨(l2, h2), f⟩ : FuncRange) ∈ getPCRanges entries funcs := by
  constructor
  · exact mem_getPCRanges_iff.mpr (collectRanges_mem he1 ht1 hn1 hl1 hh1 hf)
  · exact mem_getPCRanges_iff.mpr
      (collectRanges_mem he2 ht2 hn2 hl2 hh2 (hstrip ▸ hf))

/-- Witness for C3: two instantiation records of `main.Base` resolve
to the single indexed function. -/
theorem getPCRanges_instantiations_share_func_witness :
    (⟨(100, 200), ⟨"main.Base", 3, 7⟩⟩ : FuncRange) ∈
        getPCRanges
          [⟨Tag.subprogram, some "main.Base[int]", some 100, some 200, []⟩,
           ⟨Tag.subprogram, some "main.Base[float64]", some 300, some 400, []⟩]
          (fun k => if k = "main.Base" then some ⟨"main.Base", 3, 7⟩ else none) ∧
      (⟨(300, 400), ⟨"main.Base", 3, 7⟩⟩ : FuncRange) ∈
        getPCRanges
          [⟨Tag.subprogram, some "main.Base[int]", some 100, some 200, []⟩,
           ⟨Tag.subprogram, some "main.Base[float64]", some 300, some 400, []⟩]
          (fun k => if k = "main.Base" then some ⟨"main.Base", 3, 7⟩ else none) :=
  getPCRanges_instantiations_share_func _ _ _ _
    "main.Base[int]" "main.Base[float64]" 100 200 300 400 ⟨"main.Base", 3, 7⟩
    (List.mem_cons_self _ _) rfl rfl rfl rfl
    (List.mem_cons_of_mem _ (List.mem_cons_self _ _)) rfl rfl rfl rfl
    (by decide) (by decide)

/-- C4 counterexample: a subprogram record with equal low and high PC
(5 and 5) is matched against the index and its degenerate range IS
inserted into the sequence, contradicting the claim that such records
are skipped. -/
theorem getPCRanges_degenerate_inserted :
    getPCRanges [⟨Tag.subprogram, some "main.f", some 5, some 5, []⟩]
        (fun k => if k = "main.f" then some ⟨"main.f", 1, 2⟩ else none) =
      [⟨(5, 5), ⟨"main.f", 1, 2⟩⟩] ∧ ¬ (5 : Nat) < 5 :=
  ⟨by decide, by decide⟩

/-- C4 (amended): a matched subprogram record is inserted with its low
and high PC verbatim, with no check that low < high; a degenerate
range (high ≤ low) is inserted all the same, but it contains no
address, so the lookup can never return it. -/
theorem getPCRanges_inserts_matched (entries : List DwarfEntry)
    (funcs : String → Option Func) (e : DwarfEntry) (n : String)
    (low high : Nat) (f : Func)
    (he : e ∈ entries) (ht : e.tag = Tag.subprogram) (hn : e.name = some n)
    (hl : e.lowpc = some low) (hh : e.highpc = some high)
    (hf : funcs (withoutTypeParams n) = some f) :
    (⟨(low, high), f⟩ : FuncRange) ∈ getPCRanges entries funcs ∧
      (high ≤ low → ∀ pc : Nat, ¬(low ≤ pc ∧ pc < high)) := by
  refine ⟨mem_getPCRanges_iff.mpr (collectRanges_mem he ht hn hl hh hf), ?_⟩
  intro hdeg pc hcon
  exact Nat.lt_irrefl pc (Nat.lt_of_lt_of_le hcon.2 (Nat.le_trans hdeg hcon.1))

/-- Witness for the amended C4 at the concrete degenerate record. -/
theorem getPCRanges_inserts_matched_witness :
    (⟨(5, 5), ⟨"main.f", 1, 2⟩⟩ : FuncRange) ∈
        getPCRanges [⟨Tag.subprogram, some "main.f", some 5, some 5, []⟩]
          (fun k => if k = "main.f" then some ⟨"main.f", 1, 2⟩ else none) ∧
      ((5 : Nat) ≤ 5 → ∀ pc : Nat, ¬(5 ≤ pc ∧ pc < 5)) :=
  getPCRanges_inserts_matched _ _ _ "main.f" 5 5 ⟨"main.f", 1, 2⟩
    (List.mem_cons_self _ _) rfl rfl rfl rfl (by decide)

/-- C6: a debug record that is not a subprogram, or is missing its
name, low-PC or high-PC attribute, or whose stripped name is absent
from the index, contributes nothing to the range sequence. -/
theorem getPCRanges_skips_incomplete (e : DwarfEntry) (es : List DwarfEntry)
    (funcs : String → Option Func)
    (h : e.tag ≠ Tag.subprogram ∨ e.name = none ∨ e.lowpc = none ∨ e.highpc = none ∨
      ∀ n, e.name = some n → funcs (withoutTypeParams n) = none) :
    getPCRanges (e :: es) funcs = getPCRanges es funcs := by
  unfold getPCRanges
  have hcoll : collectRanges (e :: es) funcs = collectRanges es funcs := by
    obtain ⟨t, nm, lo, hi, lp⟩ := e
    simp only at h
    by_cases ht : t = Tag.subprogram
    · simp only [collectRanges, if_pos ht]
      rcases h with h | h | h | h | h
      · exact absurd ht h
      · subst h; rfl
      · subst h; cases nm <;> rfl
      · subst h; cases nm <;> cases lo <;> rfl
      · cases nm with
        | none => rfl
        | some n =>
          cases lo with
          | none => rfl
          | some l =>
            cases hi with
            | none => rfl
            | some hv => simp only [h n rfl]
    · simp only [collectRanges, if_neg ht]
  rw [hcoll]

/-- Witness for C6: a subprogram record with no low-PC attribute adds
no range. -/
theorem getPCRanges_skips_incomplete_witness :
    getPCRanges [⟨Tag.subprogram, some "main.f", none, some 7, []⟩]
        (fun k => if k = "main.f" then some ⟨"main.f", 1, 2⟩ else none) =
      getPCRanges []
        (fun k => if k = "main.f" then some ⟨"main.f", 1, 2⟩ else none) :=
  getPCRanges_skips_incomplete _ _ _ (Or.inr (Or.inr (Or.inl rfl)))

/-! ### Line consistency checking -/

/-- C1: for a line entry whose address resolves to an owning function,
the per-entry check of `checkLines` emits the violation (basename,
line, address, owning name) exactly when the reported line is strictly
below the start line or strictly above the end line; in particular,
when the function's span is well formed, an entry on the start or end
line itself produces no violation. -/
theorem checkEntry_violation_iff (rs : List FuncRange) (lne : LineEntry) (fn : Func)
    (hfn : getFunc lne.Address rs = some fn) :
    (checkEntry rs lne = some ⟨basename lne.File, lne.Line, lne.Address, fn.Name⟩ ↔
        (lne.Line < fn.startLine ∨ lne.Line > fn.endLine)) ∧
      (fn.startLine ≤ fn.endLine →
        (lne.Line = fn.startLine ∨ lne.Line = fn.endLine) →
          checkEntry rs lne = none) := by
  have hce : checkEntry rs lne =
      if lne.Line < fn.startLine ∨ lne.Line > fn.endLine then
        some ⟨basename lne.File, lne.Line, lne.Address, fn.Name⟩
      else none := by
    simp [checkEntry, onlyStmt, hfn]
  constructor
  · by_cases hout : lne.Line < fn.startLine ∨ lne.Line > fn.endLine
    · simp [hce, hout]
    · simp [hce, hout]
  · intro hse hb
    have hnot : ¬(lne.Line < fn.startLine ∨ lne.Line > fn.endLine) := by
      rintro (hlt | hgt)
      · rcases hb with hb | hb
        · rw [hb] at hlt; exact lt_irrefl _ hlt
        · rw [hb] at hlt; exact absurd hse (not_le.mpr hlt)
      · rcases hb with hb | hb
        · rw [hb] at hgt; exact absurd hse (not_le.mpr hgt)
        · rw [hb] at hgt; exact lt_irrefl _ hgt
    rw [hce, if_neg hnot]

/-- Witness for C1: with `main.A` spanning lines 2-4 and owning
addresses `[0, 10)`, an entry at line 9 yields the violation and an
entry at the start line 2 yields none. -/
theorem checkEntry_violation_iff_witness :
    checkEntry [⟨(0, 10), ⟨"main.A", 2, 4⟩⟩] ⟨5, "dir/file.go", 9, true⟩ =
        some ⟨basename "dir/file.go", 9, 5, "main.A"⟩ ∧
      checkEntry [⟨(0, 10), ⟨"main.A", 2, 4⟩⟩] ⟨5, "dir/file.go", 2, true⟩ = none :=
  ⟨(checkEntry_violation_iff _ ⟨5, "dir/file.go", 9, true⟩ ⟨"main.A", 2, 4⟩
      (by decide)).1.mpr (by decide),
    (checkEntry_violation_iff _ ⟨5, "dir/file.go", 2, true⟩ ⟨"main.A", 2, 4⟩
      (by decide)).2 (by decide) (Or.inl rfl)⟩

/-- C7: a line entry whose address lies outside every range is skipped
by the per-entry check of `checkLines`: no violation is produced. -/
theorem checkEntry_unmatched_none (rs : List FuncRange) (lne : LineEntry)
    (h : ∀ r ∈ rs, ¬(r.Rng.1 ≤ lne.Address ∧ lne.Address < r.Rng.2)) :
    checkEntry rs lne = none := by
  have hg : getFunc lne.Address rs = none := (getFunc_eq_none_iff _ _).mpr h
  simp [checkEntry, onlyStmt, hg]

/-- Witness for C7 at address 5, outside the single range `[10, 20)`. -/
theorem checkEntry_unmatched_none_witness :
    checkEntry [⟨(10, 20), ⟨"main.A", 2, 4⟩⟩] ⟨5, "file.go", 99, true⟩ = none :=
  checkEntry_unmatched_none _ ⟨5, "file.go", 99, true⟩ (by decide)

/-! ### Function index construction -/

/-- Folding declarations none of whose keys is `k` leaves the map
unchanged at `k`. -/
theorem foldl_updFunc_of_not_key : ∀ (decls : List FuncDecl)
    (m : String → Option Func) (k : String),
    (∀ d ∈ decls, funcDeclKey d ≠ k) → decls.foldl updFunc m k = m k := by
  intro decls
  induction decls with
  | nil => intro m k _; rfl
  | cons d ds ih =>
    intro m k h
    simp only [List.foldl_cons]
    rw [ih (updFunc m d) k (fun d2 hd2 => h d2 (List.mem_cons_of_mem d hd2))]
    unfold updFunc
    rw [if_neg (fun hk => h d (List.mem_cons_self d ds) hk.symm)]

/-- C8: a declaration whose canonical key is not shadowed by any later
declaration is recorded in the index under exactly the canonical name
of main.go lines 82-86 — `"main." + identifier` for a top-level
function, `"main.(" + stripped receiver type + ")." + identifier` for
a method — with the lines of the declaration's first and last token as
its inclusive span. -/
theorem getLineRanges_records (pre post : List FuncDecl) (d : FuncDecl)
    (h : ∀ d2 ∈ post, funcDeclKey d2 ≠ funcDeclKey d) :
    getLineRanges (pre ++ d :: post) (funcDeclKey d) =
        some ⟨funcDeclKey d, d.startLine, d.endLine⟩ ∧
      (d.recvType = none → funcDeclKey d = "main." ++ d.name) ∧
      (∀ t, d.recvType = some t →
        funcDeclKey d = "main.(" ++ withoutTypeParams t ++ ")." ++ d.name) := by
  refine ⟨?_, ?_, ?_⟩
  · unfold getLineRanges
    rw [List.foldl_append, List.foldl_cons]
    rw [foldl_updFunc_of_not_key post _ _ h]
    unfold updFunc
    rw [if_pos rfl]
  · intro hr
    unfold funcDeclKey
    rw [hr]
  · intro t hr
    unfold funcDeclKey
    rw [hr]
    rw [← String.append_assoc]
    congr 1

/-- Witness for C8: the method declaration `func (t *Box[T]) Get()` on
lines 10-12 is indexed as `main.(*Box).Get`. -/
theorem getLineRanges_records_witness :
    getLineRanges [⟨"Get", some "*Box[T]", 10, 12⟩]
        (funcDeclKey ⟨"Get", some "*Box[T]", 10, 12⟩) =
        some ⟨funcDeclKey ⟨"Get", some "*Box[T]", 10, 12⟩, 10, 12⟩ ∧
      funcDeclKey ⟨"Get", some "*Box[T]", 10, 12⟩ = "main.(*Box).Get" := by
  have h := getLineRanges_records [] [] ⟨"Get", some "*Box[T]", 10, 12⟩
    (by intro d2 hd2; simp at hd2)
  refine ⟨h.1, ?_⟩
  rw [h.2.2 "*Box[T]" rfl]
  decide

/-! ### Determinism of the pipeline -/

/-- C9: the checking pipeline is a function of the parsed declarations
and the decoded debug info alone: two runs on equal inputs produce
identical violation streams, in the same order. -/
theorem pipeline_deterministic (decls1 decls2 : List FuncDecl)
    (entries1 entries2 : List DwarfEntry)
    (hd : decls1 = decls2) (he : entries1 = entries2) :
    pipeline decls1 entries1 = pipeline decls2 entries2 := by
  subst hd
  subst he
  rfl

/-- Witness for C9 on a concrete one-function, one-compile-unit
input. -/
theorem pipeline_deterministic_witness :
    pipeline [⟨"f", none, 1, 3⟩]
        [⟨Tag.subprogram, some "main.f", some 0, some 10, []⟩,
         ⟨Tag.compileUnit, none, none, none, [⟨5, "a.go", 7, true⟩]⟩] =
      pipeline [⟨"f", none, 1, 3⟩]
        [⟨Tag.subprogram, some "main.f", some 0, some 10, []⟩,
         ⟨Tag.compileUnit, none, none, none, [⟨5, "a.go", 7, true⟩]⟩] :=
  pipeline_deterministic _ _ _ _ rfl rfl

end Badln
